import Mathlib

/-!
Verification of the processing-pipeline engine of `src/backend/processor.py`
(silent-cutter backend). Python floats are modelled as exact rationals `ℚ`;
code that can raise an exception is modelled with `Option`/explicit outcome
values. Line numbers in doc comments refer to `src/backend/processor.py`.
-/

/-- A speech interval, the Python dict `{'start': float, 'end': float}`.
The field `stop` embeds the Python key `'end'` (`end` is a Lean keyword). -/
structure SpeechInterval where
  start : ℚ
  stop : ℚ
deriving DecidableEq, Repr

/-- Embeds `format_eta` (lines 18-31). In the formatted branch `seconds` is
nonnegative, so Python's truncating `int(seconds)` coincides with the floor,
and the value fits in `ℕ`. -/
def format_eta (seconds : ℚ) : String :=
  if seconds < 0 ∨ 86400 < seconds then "calculating..."
  else
    let secs : ℕ := (⌊seconds⌋).toNat
    if secs < 60 then toString secs ++ "s"
    else if secs < 3600 then
      toString (secs / 60) ++ "m " ++ toString (secs % 60) ++ "s"
    else
      toString (secs / 3600) ++ "h " ++ toString (secs % 3600 / 60) ++ "m " ++
        toString (secs % 3600 % 60) ++ "s"

/-- Restates the seconds / minutes-and-seconds / hours-minutes-seconds display
of the spec as a function of the truncated whole number of seconds, to compare
with `format_eta`. -/
def etaDisplayOfSecs (secs : ℕ) : String :=
  if secs < 60 then toString secs ++ "s"
  else if secs < 3600 then
    toString (secs / 60) ++ "m " ++ toString (secs % 60) ++ "s"
  else
    toString (secs / 3600) ++ "h " ++ toString (secs % 3600 / 60) ++ "m " ++
      toString (secs % 3600 % 60) ++ "s"

/-- Embeds Python `str.split(sep)` for a one-character separator, over the
character list of the string. `''.split(c) = ['']`, `':'.split(':') = ['','']`. -/
def splitOnChar (c : Char) : List Char → List (List Char)
  | [] => [[]]
  | a :: rest =>
    if a = c then [] :: splitOnChar c rest
    else
      match splitOnChar c rest with
      | [] => [[a]]
      | p :: ps => (a :: p) :: ps

/-- Value of a list of decimal digit characters. -/
def digitsToNat (l : List Char) : ℕ :=
  l.foldl (fun acc c => acc * 10 + (c.toNat - '0'.toNat)) 0

/-- Embeds Python `int(s)`: an optional sign followed by at least one decimal
digit. (Surrounding whitespace and underscore grouping, which `int` also
accepts, never occur in the inputs considered here.) `none` models the
`ValueError` that `int` raises on other strings. -/
def parsePyInt (l : List Char) : Option ℤ :=
  match l with
  | '-' :: rest =>
    if rest ≠ [] ∧ rest.all Char.isDigit then some (-(digitsToNat rest : ℤ)) else none
  | '+' :: rest =>
    if rest ≠ [] ∧ rest.all Char.isDigit then some (digitsToNat rest : ℤ) else none
  | _ => if l ≠ [] ∧ l.all Char.isDigit then some (digitsToNat l : ℤ) else none

/-- Decimal forms accepted by Python `float(s)` without a sign: digits with at
most one point and at least one digit overall. -/
def parseUnsignedFloat (l : List Char) : Option ℚ :=
  match splitOnChar '.' l with
  | [ip] => if ip ≠ [] ∧ ip.all Char.isDigit then some (digitsToNat ip) else none
  | [ip, fp] =>
    if (ip ≠ [] ∨ fp ≠ []) ∧ ip.all Char.isDigit ∧ fp.all Char.isDigit then
      some ((digitsToNat ip : ℚ) + (digitsToNat fp : ℚ) / (10 ^ fp.length))
    else none
  | _ => none

/-- Embeds Python `float(s)` on the decimal forms relevant to the ffmpeg
progress protocol (exponent, `inf` and `nan` spellings never occur there).
`none` models the `ValueError` on other strings. -/
def parsePyFloat (l : List Char) : Option ℚ :=
  match l with
  | '-' :: rest => (parseUnsignedFloat rest).map (fun q => -q)
  | '+' :: rest => parseUnsignedFloat rest
  | _ => parseUnsignedFloat l

/-- Embeds `parse_ffmpeg_time` (lines 34-40): split on `':'`; with exactly
three fields return `int(h)*3600 + int(m)*60 + float(s)`, otherwise `0.0`.
`none` models the uncaught `ValueError` raised by `int`/`float` on
non-numeric fields. -/
def parse_ffmpeg_time (time_str : String) : Option ℚ :=
  let parts := splitOnChar ':' time_str.toList
  if parts.length = 3 then
    match parsePyInt (parts.getD 0 []), parsePyInt (parts.getD 1 []),
        parsePyFloat (parts.getD 2 []) with
    | some hv, some mv, some sv => some (hv * 3600 + mv * 60 + sv)
    | _, _, _ => none
  else some 0

/-- Embeds Python `str.strip()` (whitespace on both ends). -/
def trimChars (l : List Char) : List Char :=
  ((l.dropWhile Char.isWhitespace).reverse.dropWhile Char.isWhitespace).reverse

/-- Embeds the `out_time` line handling of `_extract_audio_with_progress`
(lines 254-257): for a line starting with `out_time=`, the stripped value is
handed to `parse_ffmpeg_time` unless it is empty or `N/A`; `none` means the
line is skipped without parsing. -/
def extract_out_time (line : List Char) : Option (List Char) :=
  if "out_time=".toList.isPrefixOf line then
    let time_str := trimChars ((splitOnChar '=' line).getD 1 [])
    if time_str ≠ [] ∧ time_str ≠ "N/A".toList then some time_str else none
  else none

/-- Sort key of `_merge_timestamps` line 416: compare intervals by `start`. -/
def leStart (a b : SpeechInterval) : Prop := a.start ≤ b.start

instance : DecidableRel leStart :=
  fun a b => inferInstanceAs (Decidable (a.start ≤ b.start))

instance : IsTotal SpeechInterval leStart :=
  ⟨fun a b => le_total a.start b.start⟩

instance : IsTrans SpeechInterval leStart :=
  ⟨fun _ _ _ h1 h2 => le_trans h1 h2⟩

/-- Embeds `timestamps.sort(key=lambda x: x['start'])` (line 416): a stable
sort by `start` (insertion sort is stable, like Python's sort). -/
def sortByStart (ts : List SpeechInterval) : List SpeechInterval :=
  List.insertionSort leStart ts

/-- Loop of `_merge_timestamps` (lines 418-431): `current` is the running
interval; a next interval starting before `current['end'] + min_gap` is merged
by extending the end, otherwise `current` is emitted. -/
def mergeAux (min_gap : ℚ) (current : SpeechInterval) :
    List SpeechInterval → List SpeechInterval
  | [] => [current]
  | next :: rest =>
    if next.start < current.stop + min_gap then
      mergeAux min_gap ⟨current.start, max current.stop next.stop⟩ rest
    else
      current :: mergeAux min_gap next rest

/-- Embeds `_merge_timestamps` (lines 410-431): sort by start, then the sweep
of `mergeAux`. -/
def merge_timestamps (min_gap : ℚ) (timestamps : List SpeechInterval) :
    List SpeechInterval :=
  match sortByStart timestamps with
  | [] => []
  | t :: rest => mergeAux min_gap t rest

/-- Default of the `min_gap` parameter in the Python signature
`_merge_timestamps(self, timestamps, min_gap: float = 0.2)`; the sole caller
(line 360) uses this default. -/
def merge_default_min_gap : ℚ := 1/5

/-- Gap invariant between adjacent merge outputs: the next interval starts at
least `min_gap` after the current one ends. -/
def gapOK (min_gap : ℚ) (a b : SpeechInterval) : Prop := a.stop + min_gap ≤ b.start

/-- Embeds the FAILSAFE pass of `_render_video_with_progress` (lines 448-459):
walk intervals, lift `start` to `last_end` when it is smaller (the inner `if`
is `start = last_end if start < last_end else start`), drop intervals whose
`end <= start`, and advance `last_end` only on kept intervals. -/
def safeAux (last_end : ℚ) : List SpeechInterval → List SpeechInterval
  | [] => []
  | ts :: rest =>
    if ts.stop ≤ (if ts.start < last_end then last_end else ts.start) then
      safeAux last_end rest
    else
      ⟨(if ts.start < last_end then last_end else ts.start), ts.stop⟩ ::
        safeAux ts.stop rest

/-- The safety pass with the initial `last_end = 0.0` of line 450. -/
def safe_timestamps (timestamps : List SpeechInterval) : List SpeechInterval :=
  safeAux 0 timestamps

/-- Maximum absolute sample (`np.max(np.abs(data))`, lines 386, 401); the 0
seed of the fold is neutral because absolute values are nonnegative. -/
def maxAbs (l : List ℚ) : ℚ := (l.map (fun x => |x|)).foldl max 0

/-- Consecutive windows of `step` samples (the `reshape(-1, step)` of line
401); `fuel` bounds the recursion and is instantiated with the list length,
which suffices since every window consumes at least one sample. -/
def chunksAux (step : ℕ) : ℕ → List ℚ → List (List ℚ)
  | 0, _ => []
  | _ + 1, [] => []
  | fuel + 1, x :: xs => (x :: xs).take step :: chunksAux step fuel ((x :: xs).drop step)

/-- Windowing with the fuel set to the list length. -/
def chunks (step : ℕ) (l : List ℚ) : List (List ℚ) := chunksAux step l.length l

/-- Python `round(x, 3)` (line 404) on exact rationals (ties, which Python
rounds half-to-even on floats, do not occur in the values considered here). -/
def round3 (x : ℚ) : ℚ := (round (x * 1000) : ℤ) / 1000

/-- Pad-window-reduce of lines 394-404: zero-pad the samples to a multiple of
`step`, take the peak absolute amplitude of each window, round to 3 decimals. -/
def wavePeaks (step : ℕ) (d : List ℚ) : List ℚ :=
  (chunks step (d ++ List.replicate ((step - d.length % step) % step) 0)).map
    (fun w => round3 (maxAbs w))

/-- Embeds `get_waveform_data` (lines 364-408) from the point where the wav
file has been read: `sample_rate` and the mono `data` stand for the result of
`wavfile.read` (the missing-file and stereo-averaging branches are upstream
I/O); the caller uses the default `points_per_second = 20`. The data is
divided by the global peak only when that peak is positive (line 387), and
`step = int(sample_rate / points_per_second)` floored at 1 (lines 391-392). -/
def get_waveform_data (sample_rate points_per_second : ℕ) (data : List ℚ) : List ℚ :=
  if data = [] then []
  else if 0 < maxAbs data then
    wavePeaks (max (sample_rate / points_per_second) 1)
      (data.map (fun x => x / maxAbs data))
  else
    wavePeaks (max (sample_rate / points_per_second) 1) data

/-- Outcome of the render-stage skeleton: the `raise` of lines 437/478
(cancellation), the `raise` of line 528 (all segments failed), the `raise`
of line 561 (concat failed), the copy-original return of lines 439-444, or a
successful render carrying the surviving segment indices. -/
inductive RenderOutcome
  | cancelledO
  | allFailedO
  | concatFailedO
  | copiedOriginal
  | rendered (segFiles : List ℕ)
deriving DecidableEq, Repr

/-- Observable effects of one `_render_video_with_progress` run: its outcome,
how many per-segment encode processes were spawned, and whether the concat
(join) process was spawned. -/
structure RenderResult where
  outcome : RenderOutcome
  segSpawns : ℕ
  concatSpawned : Bool
deriving DecidableEq, Repr

/-- What each read of `self.cancelled` inside `_render_video_with_progress`
observes. The flag is set asynchronously by `cancel()` and never written to
`False` anywhere in the render, so a schedule stemming from an actual run is
monotone; the fields record the reads at line 437 (`atStart`), line 477
before segment `i` (`beforeSeg i`), line 505 after segment `i`'s process
exits (`afterSeg i`), and line 558 after the concat process exits
(`atConcat`). -/
structure CancelSchedule where
  atStart : Bool
  beforeSeg : ℕ → Bool
  afterSeg : ℕ → Bool
  atConcat : Bool

/-- STEP 1 of `_render_video_with_progress` (lines 476-523): one iteration
per safe timestamp index; each iteration checks the flag (line 477, `.error`
carries the spawn count at the raise), spawns one encode, appends its file,
and pops the file again when the process failed while not cancelled
(lines 505-512). -/
def segLoop (sched : CancelSchedule) (segOk : ℕ → Bool) :
    List ℕ → List ℕ → ℕ → Except ℕ (List ℕ × ℕ)
  | [], files, spawned => .ok (files, spawned)
  | i :: rest, files, spawned =>
    if sched.beforeSeg i then .error spawned
    else
      if ¬ segOk i ∧ ¬ sched.afterSeg i then
        segLoop sched segOk rest ((files ++ [i]).dropLast) (spawned + 1)
      else
        segLoop sched segOk rest (files ++ [i]) (spawned + 1)

/-- After the segment loop of `_render_video_with_progress`: the all-failed
check of line 527, then — with no cancellation check in between — the concat
spawn of STEP 2; a non-zero concat exit while cancelled is not raised
(line 558). `concatOk` says whether the concat process exits with code 0. -/
def renderAfterLoop (sched : CancelSchedule) (concatOk : Bool) :
    Except ℕ (List ℕ × ℕ) → RenderResult
  | .error spawned => ⟨.cancelledO, spawned, false⟩
  | .ok (files, spawned) =>
    if files = [] then ⟨.allFailedO, spawned, false⟩
    else if ¬ concatOk ∧ ¬ sched.atConcat then ⟨.concatFailedO, spawned, true⟩
    else ⟨.rendered files, spawned, true⟩

/-- The full skeleton: initial check (line 437), copy-original on empty input
(lines 439-444), safety pass, segment loop, then `renderAfterLoop`. -/
def render_video (sched : CancelSchedule) (segOk : ℕ → Bool) (concatOk : Bool)
    (timestamps : List SpeechInterval) : RenderResult :=
  if sched.atStart then ⟨.cancelledO, 0, false⟩
  else if timestamps = [] then ⟨.copiedOriginal, 0, false⟩
  else
    renderAfterLoop sched concatOk
      (segLoop sched segOk (List.range (safe_timestamps timestamps).length) [] 0)

/-- Skeleton of the start of `process_async` (lines 161-180): the method
begins by overwriting the flag with `False` (line 164), emits the
`initializing` status, then checks the flag (line 168) before probing the
file and spawning the audio-extraction process. `flagOnEntry` is the value
`cancel()` may have set before the run began; `cancelDuringBanner` is whether
`cancel()` runs between the reset and the check. Returns whether the run
raises `Cancelled` at that first check, and how many external processes have
been spawned by then. -/
def process_async_start (flagOnEntry cancelDuringBanner : Bool) : Bool × ℕ :=
  let cancelledAfterReset := flagOnEntry && false
  let cancelledAtCheck := cancelledAfterReset || cancelDuringBanner
  if cancelledAtCheck then (true, 0)
  else (false, 1)

/-- Schedule in which `cancel()` lands after the last per-segment check and
before the join: every in-loop read sees `false`, the post-join read would
see `true`. -/
def cancelAfterSegments : CancelSchedule :=
  ⟨false, fun _ => false, fun _ => false, true⟩

/-- Schedule in which `cancel()` lands between the checks for segments 0
and 1. -/
def cancelSchedSeg1 : CancelSchedule :=
  ⟨false, fun j => j == 1, fun _ => false, false⟩

/-- Schedule of a run with no cancellation: every read sees `false`. -/
def noCancel : CancelSchedule :=
  ⟨false, fun _ => false, fun _ => false, false⟩

/-- C10: `format_eta` returns the fixed string for every negative or
over-one-day input, and for every input in `[0, 86400]` it formats the
truncated integer number of seconds as seconds / minutes-and-seconds /
hours-minutes-seconds. -/
theorem format_eta_spec (q : ℚ) :
    ((q < 0 ∨ 86400 < q) → format_eta q = "calculating...") ∧
    (0 ≤ q → q ≤ 86400 → format_eta q = etaDisplayOfSecs (⌊q⌋).toNat) := by
  constructor
  · intro h
    simp only [format_eta, if_pos h]
  · intro h1 h2
    have hnot : ¬ (q < 0 ∨ 86400 < q) := by
      push_neg
      exact ⟨h1, h2⟩
    simp only [format_eta, if_neg hnot, etaDisplayOfSecs]

/-- Closed instances of `format_eta_spec`: one day plus a second is
"calculating...", 100 seconds is formatted from the integer 100. -/
theorem format_eta_spec_witness :
    format_eta 86401 = "calculating..." ∧ format_eta 100 = etaDisplayOfSecs 100 := by
  constructor
  · exact (format_eta_spec 86401).1 (Or.inr (by norm_num))
  · have h := (format_eta_spec 100).2 (by norm_num) (by norm_num)
    have hf : ((⌊(100 : ℚ)⌋).toNat) = 100 := by decide
    rw [hf] at h
    exact h

/-- The first interval emitted by `mergeAux` keeps the start of `current`. -/
theorem mergeAux_head (g : ℚ) :
    ∀ (l : List SpeechInterval) (c : SpeechInterval),
      ∃ d l', mergeAux g c l = d :: l' ∧ d.start = c.start := by
  intro l
  induction l with
  | nil => exact fun c => ⟨c, [], rfl, rfl⟩
  | cons next rest ih =>
    intro c
    by_cases h : next.start < c.stop + g
    · obtain ⟨d, l', hout, hd⟩ := ih ⟨c.start, max c.stop next.stop⟩
      exact ⟨d, l', by rw [mergeAux, if_pos h]; exact hout, hd⟩
    · exact ⟨c, mergeAux g next rest, by rw [mergeAux, if_neg h], rfl⟩

/-- On a start-sorted input, `mergeAux` emits a start-sorted sequence whose
adjacent intervals respect the gap threshold. -/
theorem mergeAux_sorted_chain (g : ℚ) :
    ∀ (l : List SpeechInterval) (c : SpeechInterval),
      List.Sorted leStart (c :: l) →
      List.Sorted leStart (mergeAux g c l) ∧ List.Chain' (gapOK g) (mergeAux g c l) := by
  intro l
  induction l with
  | nil =>
    intro c _
    exact ⟨List.sorted_singleton c, List.chain'_singleton c⟩
  | cons next rest ih =>
    intro c hs
    have hcx : ∀ x ∈ next :: rest, leStart c x := List.rel_of_sorted_cons hs
    have htail : List.Sorted leStart (next :: rest) := hs.of_cons
    by_cases h : next.start < c.stop + g
    · have hs' : List.Sorted leStart (⟨c.start, max c.stop next.stop⟩ :: rest) := by
        rw [List.sorted_cons]
        refine ⟨fun x hx => ?_, htail.of_cons⟩
        exact hcx x (List.mem_cons_of_mem next hx)
      have hres := ih ⟨c.start, max c.stop next.stop⟩ hs'
      rw [mergeAux, if_pos h]
      exact hres
    · have hres := ih next htail
      obtain ⟨d, l', hout, hd⟩ := mergeAux_head g rest next
      rw [mergeAux, if_neg h]
      constructor
      · rw [List.sorted_cons]
        refine ⟨fun x hx => ?_, hres.1⟩
        have hdx : leStart d x := by
          rw [hout] at hx hres
          rcases List.mem_cons.mp hx with h1 | h1
          · rw [h1]
            exact le_refl d.start
          · exact List.rel_of_sorted_cons hres.1 x h1
        have hcn : leStart c next := hcx next (List.mem_cons_self next rest)
        show c.start ≤ x.start
        calc c.start ≤ next.start := hcn
          _ = d.start := hd.symm
          _ ≤ x.start := hdx
      · rw [hout]
        rw [hout] at hres
        refine List.chain'_cons.mpr ⟨?_, hres.2⟩
        show c.stop + g ≤ d.start
        rw [hd]
        exact not_lt.mp h

/-- A sequence already satisfying the gap invariant is left unchanged by the
merge sweep. -/
theorem mergeAux_noop (g : ℚ) :
    ∀ (l : List SpeechInterval) (c : SpeechInterval),
      List.Chain' (gapOK g) (c :: l) → mergeAux g c l = c :: l := by
  intro l
  induction l with
  | nil => intro c _; rfl
  | cons next rest ih =>
    intro c hc
    have h1 : gapOK g c next := (List.chain'_cons.mp hc).1
    have h2 : List.Chain' (gapOK g) (next :: rest) := (List.chain'_cons.mp hc).2
    rw [mergeAux, if_neg (not_lt.mpr h1), ih next h2]

/-- The merge sweep never emits more intervals than `1 +` its input length. -/
theorem mergeAux_length (g : ℚ) :
    ∀ (l : List SpeechInterval) (c : SpeechInterval),
      (mergeAux g c l).length ≤ l.length + 1 := by
  intro l
  induction l with
  | nil => intro c; simp [mergeAux]
  | cons next rest ih =>
    intro c
    by_cases h : next.start < c.stop + g
    · rw [mergeAux, if_pos h]
      exact le_trans (ih _) (by simp)
    · rw [mergeAux, if_neg h]
      simpa using ih next

/-- C6: `_merge_timestamps` is idempotent for every gap threshold and every
input interval sequence. -/
theorem merge_idempotent (g : ℚ) (ts : List SpeechInterval) :
    merge_timestamps g (merge_timestamps g ts) = merge_timestamps g ts := by
  have hsorted : List.Sorted leStart (sortByStart ts) :=
    List.sorted_insertionSort leStart ts
  rcases hs : sortByStart ts with _ | ⟨t, rest⟩
  · have h0 : merge_timestamps g ts = [] := by
      unfold merge_timestamps
      rw [hs]
    rw [h0]
    rfl
  · rw [hs] at hsorted
    obtain ⟨hsor, hchain⟩ := mergeAux_sorted_chain g rest t hsorted
    have h1 : merge_timestamps g ts = mergeAux g t rest := by
      simp [merge_timestamps, hs]
    rw [h1]
    obtain ⟨d, l', hout, _⟩ := mergeAux_head g rest t
    rw [hout] at hsor hchain ⊢
    have hsort_eq : sortByStart (d :: l') = d :: l' :=
      List.Sorted.insertionSort_eq hsor
    have h2 : merge_timestamps g (d :: l') = mergeAux g d l' := by
      unfold merge_timestamps
      rw [hsort_eq]
    rw [h2]
    exact mergeAux_noop g l' d hchain

/-- C7: for a nonnegative gap threshold, the merged output never has more
intervals than the input, adjacent outputs never overlap
(`out[i].end <= out[i+1].start`), and empty input yields empty output. -/
theorem merge_bounds (g : ℚ) (ts : List SpeechInterval) (hg : 0 ≤ g) :
    (merge_timestamps g ts).length ≤ ts.length ∧
    List.Chain' (fun a b => a.stop ≤ b.start) (merge_timestamps g ts) ∧
    merge_timestamps g ([] : List SpeechInterval) = [] := by
  refine ⟨?_, ?_, rfl⟩
  · rcases hs : sortByStart ts with _ | ⟨t, rest⟩
    · simp [merge_timestamps, hs]
    · have h1 : merge_timestamps g ts = mergeAux g t rest := by
        simp [merge_timestamps, hs]
      rw [h1]
      have h2 := mergeAux_length g rest t
      have h3 : rest.length + 1 = ts.length := by
        have h4 : (sortByStart ts).length = ts.length :=
          List.length_insertionSort leStart ts
        rw [hs] at h4
        simpa using h4
      omega
  · rcases hs : sortByStart ts with _ | ⟨t, rest⟩
    · simp [merge_timestamps, hs]
    · have hsorted : List.Sorted leStart (sortByStart ts) :=
        List.sorted_insertionSort leStart ts
      rw [hs] at hsorted
      obtain ⟨_, hchain⟩ := mergeAux_sorted_chain g rest t hsorted
      have h1 : merge_timestamps g ts = mergeAux g t rest := by
        simp [merge_timestamps, hs]
      rw [h1]
      refine hchain.imp (fun a b hab => ?_)
      have : a.stop ≤ a.stop + g := le_add_of_nonneg_right hg
      exact le_trans this hab

/-- Closed instance of `merge_bounds` at gap 0 on an overlapping pair. -/
theorem merge_bounds_witness :
    (merge_timestamps 0 [⟨0,2⟩, ⟨1,3⟩]).length ≤ 2 ∧
    List.Chain' (fun a b => a.stop ≤ b.start) (merge_timestamps 0 [⟨0,2⟩, ⟨1,3⟩]) ∧
    merge_timestamps 0 ([] : List SpeechInterval) = [] :=
  merge_bounds 0 [⟨0,2⟩, ⟨1,3⟩] (by norm_num)

/-- C3 counterexample: the gap threshold does not default to 0 — it defaults
to 0.2, and under that actual default the touching (not overlapping)
intervals `{0,1}` and `{1,2}` ARE bridged into `{0,2}`. -/
theorem merge_default_counterexample :
    merge_default_min_gap ≠ 0 ∧
    merge_timestamps merge_default_min_gap [⟨0,1⟩, ⟨1,2⟩] = [⟨0,2⟩] := by
  constructor
  · norm_num [merge_default_min_gap]
  · norm_num [merge_timestamps, sortByStart, List.insertionSort, List.orderedInsert,
      leStart, mergeAux, merge_default_min_gap]

/-- C3 amended: two consecutive start-sorted intervals are merged exactly when
`next.start < current.end + gapThreshold`; the threshold defaults to 0.2 (the
sole caller uses that default); with threshold 0, touching-but-not-overlapping
intervals are not bridged. -/
theorem merge_condition_amended :
    merge_default_min_gap = 1/5 ∧
    (∀ (g : ℚ) (a b : SpeechInterval), a.start ≤ b.start →
      merge_timestamps g [a, b] =
        if b.start < a.stop + g then [⟨a.start, max a.stop b.stop⟩] else [a, b]) ∧
    (∀ a b : SpeechInterval, a.start ≤ b.start → b.start = a.stop →
      merge_timestamps 0 [a, b] = [a, b]) := by
  have hpair : ∀ (g : ℚ) (a b : SpeechInterval), a.start ≤ b.start →
      merge_timestamps g [a, b] =
        if b.start < a.stop + g then [⟨a.start, max a.stop b.stop⟩] else [a, b] := by
    intro g a b hab
    have hsort : sortByStart [a, b] = [a, b] := by
      simp [sortByStart, List.insertionSort, List.orderedInsert, leStart, hab]
    have h1 : merge_timestamps g [a, b] = mergeAux g a [b] := by
      unfold merge_timestamps
      rw [hsort]
    rw [h1]
    by_cases h : b.start < a.stop + g
    · rw [mergeAux, if_pos h, if_pos h]
      rfl
    · rw [mergeAux, if_neg h, if_neg h]
      rfl
  refine ⟨rfl, hpair, fun a b hab heq => ?_⟩
  rw [hpair 0 a b hab, if_neg ?_]
  rw [heq, add_zero]
  exact lt_irrefl a.stop

/-- Closed instances of `merge_condition_amended`: an overlapping sorted pair
merges, a touching sorted pair at threshold 0 does not. -/
theorem merge_condition_amended_witness :
    merge_timestamps 0 [⟨0,2⟩, ⟨1,3⟩] =
      (if (1:ℚ) < 2 + 0 then [⟨0, max 2 3⟩] else [⟨0,2⟩, ⟨1,3⟩]) ∧
    merge_timestamps 0 [⟨0,1⟩, ⟨1,2⟩] = [⟨0,1⟩, ⟨1,2⟩] :=
  ⟨merge_condition_amended.2.1 0 ⟨0,2⟩ ⟨1,3⟩ (by norm_num),
   merge_condition_amended.2.2 ⟨0,1⟩ ⟨1,2⟩ (by norm_num) rfl⟩

/-- Every interval kept by `safeAux` starts at or after the running `last_end`
and is nonempty, and adjacent kept intervals are disjoint. -/
theorem safeAux_props :
    ∀ (l : List SpeechInterval) (e : ℚ),
      List.Chain' (fun a b => a.stop ≤ b.start) (safeAux e l) ∧
      ∀ i ∈ safeAux e l, e ≤ i.start ∧ i.start < i.stop := by
  intro l
  induction l with
  | nil => intro e; simp [safeAux]
  | cons ts rest ih =>
    intro e
    by_cases hdrop : ts.stop ≤ (if ts.start < e then e else ts.start)
    · rw [safeAux, if_pos hdrop]
      exact ih e
    · rw [safeAux, if_neg hdrop]
      have hkeep := ih ts.stop
      have hstart : e ≤ (if ts.start < e then e else ts.start) := by
        by_cases hc : ts.start < e
        · rw [if_pos hc]
        · rw [if_neg hc]
          exact le_of_not_lt hc
      have hlt : (if ts.start < e then e else ts.start) < ts.stop := not_le.mp hdrop
      constructor
      · refine List.chain'_cons'.mpr ⟨fun y hy => ?_, hkeep.1⟩
        have hym : y ∈ safeAux ts.stop rest := List.mem_of_mem_head? hy
        exact (hkeep.2 y hym).1
      · intro i hi
        rcases List.mem_cons.mp hi with h1 | h1
        · rw [h1]
          exact ⟨hstart, hlt⟩
        · have h2 := hkeep.2 i h1
          exact ⟨le_trans hstart (le_trans (le_of_lt hlt) h2.1), h2.2⟩

/-- C9: the renderer's safety pass yields `[{0,5},{5,8}]` on the overlapping
input `[{0,5},{3,8}]`, and on every input its output is disjoint and
strictly increasing (adjacent intervals satisfy `end <= start`, every kept
interval satisfies `start < end`). -/
theorem render_safety_pass (ts : List SpeechInterval) :
    safe_timestamps [⟨0,5⟩, ⟨3,8⟩] = [⟨0,5⟩, ⟨5,8⟩] ∧
    List.Chain' (fun a b => a.stop ≤ b.start) (safe_timestamps ts) ∧
    ∀ i ∈ safe_timestamps ts, i.start < i.stop := by
  refine ⟨by decide, (safeAux_props ts 0).1, fun i hi => ((safeAux_props ts 0).2 i hi).2⟩

/-- Closed instance of `render_safety_pass`: the concrete clamped output, with
the strictness of its second interval obtained from the theorem. -/
theorem render_safety_pass_witness :
    safe_timestamps [⟨0,5⟩, ⟨3,8⟩] = [⟨0,5⟩, ⟨5,8⟩] ∧
    (⟨5,8⟩ : SpeechInterval).start < (⟨5,8⟩ : SpeechInterval).stop :=
  ⟨(render_safety_pass []).1,
   (render_safety_pass [⟨0,5⟩, ⟨3,8⟩]).2.2 ⟨5,8⟩ (by decide)⟩

/-- C5 counterexample: a malformed three-field `out_time` value passes the
caller's empty/`N/A` filter and reaches `parse_ffmpeg_time`, where parsing
fails (the `ValueError` of `int('aa')`), aborting the extraction stage
instead of being ignored. -/
theorem parse_out_time_counterexample :
    extract_out_time "out_time=aa:bb:cc".toList = some "aa:bb:cc".toList ∧
    parse_ffmpeg_time "aa:bb:cc" = none := by
  constructor
  · decide
  · decide

/-- C5 amended: the caller skips `N/A` (and empty) values before parsing;
a value that does not split into exactly three colon-separated fields parses
to 0.0 seconds without raising; a well-formed `HH:MM:SS.fraction` value parses
into seconds; but (see the counterexample) a three-field value with
non-numeric components raises, so parsing is not exception-free. -/
theorem parse_out_time_amended :
    (∀ s : String, (splitOnChar ':' s.toList).length ≠ 3 →
      parse_ffmpeg_time s = some 0) ∧
    parse_ffmpeg_time "00:01:02.5" = some (125/2) ∧
    extract_out_time "out_time=N/A".toList = none ∧
    extract_out_time "out_time=00:01:02.5".toList = some "00:01:02.5".toList := by
  refine ⟨?_, ?_, by decide, by decide⟩
  · intro s h
    simp only [parse_ffmpeg_time, if_neg h]
  · have hsp : splitOnChar ':' "00:01:02.5".toList =
        [['0','0'], ['0','1'], ['0','2','.','5']] := by decide
    have h1 : parsePyInt ['0','0'] = some 0 := by decide
    have h2 : parsePyInt ['0','1'] = some 1 := by decide
    have h3 : parsePyFloat ['0','2','.','5'] =
        some ((digitsToNat ['0','2'] : ℚ) + (digitsToNat ['5'] : ℚ) / 10 ^ 1) := by
      rfl
    have h4 : ((digitsToNat ['0','2'] : ℚ) + (digitsToNat ['5'] : ℚ) / 10 ^ 1)
        = 5/2 := by
      have d1 : digitsToNat ['0','2'] = 2 := by decide
      have d2 : digitsToNat ['5'] = 5 := by decide
      rw [d1, d2]
      norm_num
    simp only [parse_ffmpeg_time, hsp, List.length_cons, List.length_nil, List.getD]
    norm_num
    rw [h1, h2, h3, h4]
    show some (((0:ℤ):ℚ) * 3600 + ((1:ℤ):ℚ) * 60 + 5/2) = some ((125:ℚ)/2)
    norm_num

/-- Closed instance of `parse_out_time_amended`: a two-field value is parsed
as 0.0 rather than raising. -/
theorem parse_out_time_amended_witness :
    (splitOnChar ':' "1:2".toList).length ≠ 3 ∧ parse_ffmpeg_time "1:2" = some 0 :=
  ⟨by decide, parse_out_time_amended.1 "1:2" (by decide)⟩

/-- A fold of `max` stays below any bound dominating the seed and the list. -/
theorem foldl_max_le (b : ℚ) :
    ∀ (l : List ℚ) (a : ℚ), a ≤ b → (∀ x ∈ l, x ≤ b) → l.foldl max a ≤ b := by
  intro l
  induction l with
  | nil => intro a ha _; exact ha
  | cons x xs ih =>
    intro a ha hl
    rw [List.foldl_cons]
    refine ih (max a x) (max_le ha (hl x (List.mem_cons_self x xs))) ?_
    exact fun y hy => hl y (List.mem_cons_of_mem x hy)

/-- A fold of `max` dominates its seed. -/
theorem le_foldl_max : ∀ (l : List ℚ) (a : ℚ), a ≤ l.foldl max a := by
  intro l
  induction l with
  | nil => intro a; exact le_rfl
  | cons x xs ih =>
    intro a
    rw [List.foldl_cons]
    exact le_trans (le_max_left a x) (ih (max a x))

/-- The peak of an all-zero sample list is 0. -/
theorem maxAbs_of_all_zero (l : List ℚ) (hz : ∀ x ∈ l, x = 0) : maxAbs l = 0 := by
  refine le_antisymm ?_ (le_foldl_max _ 0)
  refine foldl_max_le 0 _ 0 le_rfl ?_
  intro x hx
  obtain ⟨y, hy, rfl⟩ := List.mem_map.mp hx
  rw [hz y hy]
  simp

/-- Every sample in a window produced by `chunksAux` comes from the input. -/
theorem mem_of_mem_chunksAux :
    ∀ (fuel step : ℕ) (l w : List ℚ), w ∈ chunksAux step fuel l →
      ∀ x ∈ w, x ∈ l := by
  intro fuel
  induction fuel with
  | zero => intro step l w hw; simp [chunksAux] at hw
  | succ n ih =>
    intro step l w hw x hx
    cases l with
    | nil => simp [chunksAux] at hw
    | cons a rest =>
      rw [chunksAux] at hw
      rcases List.mem_cons.mp hw with h1 | h1
      · rw [h1] at hx
        exact List.take_subset step (a :: rest) hx
      · exact List.drop_subset step (a :: rest) (ih step _ w h1 x hx)

/-- A nonempty sample list yields at least one window. -/
theorem chunks_ne_nil (step : ℕ) (l : List ℚ) (h : l ≠ []) : chunks step l ≠ [] := by
  cases l with
  | nil => exact absurd rfl h
  | cons a rest => simp [chunks, chunksAux]

/-- On nonempty all-zero samples, the pad-window-reduce pass yields a
nonempty sequence of zero peaks. -/
theorem wavePeaks_silent (step : ℕ) (d : List ℚ) (hne : d ≠ [])
    (hz : ∀ x ∈ d, x = 0) :
    wavePeaks step d ≠ [] ∧ ∀ y ∈ wavePeaks step d, y = 0 := by
  have hall : ∀ x ∈ d ++ List.replicate ((step - d.length % step) % step) 0, x = 0 := by
    intro x hx
    rcases List.mem_append.mp hx with h1 | h1
    · exact hz x h1
    · exact List.eq_of_mem_replicate h1
  constructor
  · intro hcon
    have hmapnil : chunks step (d ++ List.replicate ((step - d.length % step) % step) 0) = [] :=
      List.map_eq_nil_iff.mp hcon
    refine chunks_ne_nil step _ ?_ hmapnil
    intro h0
    exact hne (List.append_eq_nil.mp h0).1
  · intro y hy
    obtain ⟨w, hw, rfl⟩ := List.mem_map.mp hy
    have hwz : ∀ x ∈ w, x = 0 := fun x hx => hall x (mem_of_mem_chunksAux _ _ _ w hw x hx)
    rw [maxAbs_of_all_zero w hwz]
    simp [round3]

/-- C2 counterexample: a non-empty silent artifact (one zero sample at the
16 kHz extraction rate, sampled at the default 20 points per second) yields a
non-empty waveform — a zero peak per window — not the empty sequence. -/
theorem waveform_silent_counterexample :
    get_waveform_data 16000 20 [0] ≠ [] := by
  have hmax : maxAbs [0] = 0 := maxAbs_of_all_zero [0] (by decide)
  have hval : get_waveform_data 16000 20 [0] = wavePeaks (max (16000 / 20) 1) [0] := by
    unfold get_waveform_data
    rw [if_neg (by decide), if_neg (by rw [hmax]; exact lt_irrefl 0)]
  rw [hval]
  exact (wavePeaks_silent (max (16000 / 20) 1) [0] (by decide) (by decide)).1

/-- C2 amended: on every non-empty all-zero (silent) artifact, the global
peak is 0, so the normalization guard `max_val > 0` is false and no division
is performed (no division by zero is possible); the sampler returns a
non-empty sequence of all-zero peaks, not the empty sequence. -/
theorem waveform_silent_amended (sr pps : ℕ) (data : List ℚ)
    (hne : data ≠ []) (hz : ∀ x ∈ data, x = 0) :
    ¬ (0 < maxAbs data) ∧
    get_waveform_data sr pps data ≠ [] ∧
    ∀ y ∈ get_waveform_data sr pps data, y = 0 := by
  have hmax : maxAbs data = 0 := maxAbs_of_all_zero data hz
  have hval : get_waveform_data sr pps data = wavePeaks (max (sr / pps) 1) data := by
    unfold get_waveform_data
    rw [if_neg hne, if_neg (by rw [hmax]; exact lt_irrefl 0)]
  have h := wavePeaks_silent (max (sr / pps) 1) data hne hz
  refine ⟨by rw [hmax]; exact lt_irrefl 0, ?_, ?_⟩
  · rw [hval]
    exact h.1
  · rw [hval]
    exact h.2

/-- Closed instance of `waveform_silent_amended` on a two-sample silent
artifact at the extraction sample rate. -/
theorem waveform_silent_amended_witness :
    ¬ (0 < maxAbs [0, 0]) ∧
    get_waveform_data 16000 20 [0, 0] ≠ [] ∧
    ∀ y ∈ get_waveform_data 16000 20 [0, 0], y = 0 :=
  waveform_silent_amended 16000 20 [0, 0] (by decide) (by decide)

/-- C1 counterexample: a `cancel()` issued before `process_async` begins
(`flagOnEntry = true`, no later cancellation) is erased by the reset at line
164: the run does not terminate as cancelled and it spawns an external
process, contradicting both that no stage clears the flag and that a
cancel-before-start run ends cancelled with nothing spawned. -/
theorem cancel_before_start_counterexample :
    process_async_start true false ≠ (true, 0) ∧
    process_async_start true false = (false, 1) := by
  constructor
  · decide
  · rfl

/-- C1 amended: once `process_async` has performed its initial flag reset
(line 164), cancellation is terminal — the run ends as cancelled with no
external process spawned exactly when `cancel()` lands at or after the
reset; a cancellation requested before the run began has no effect, because
line 164 clears it. -/
theorem cancel_terminal_after_reset_amended (e c : Bool) :
    process_async_start e c = (true, 0) ↔ c = true := by
  cases e <;> cases c <;> simp [process_async_start]

/-- C4 counterexample: with cancellation requested after the last segment
extraction and before the join, the join is NOT preceded by a flag check —
the concat process is spawned anyway and the run even completes as rendered
instead of raising a cancellation failure. -/
theorem render_cancel_before_join_counterexample :
    (render_video cancelAfterSegments (fun _ => true) true [⟨0,5⟩]).concatSpawned = true ∧
    (render_video cancelAfterSegments (fun _ => true) true [⟨0,5⟩]).outcome =
      .rendered [0] := by
  constructor
  · rfl
  · rfl

/-- Reaching an index whose pre-segment check observes the flag raises the
cancellation error, with one spawn per earlier index. -/
theorem segLoop_cancelled_at (sched : CancelSchedule) (segOk : ℕ → Bool) (i : ℕ)
    (hi : sched.beforeSeg i = true) :
    ∀ (len s : ℕ) (files : List ℕ) (spawned : ℕ),
      (∀ j, s ≤ j → j < i → sched.beforeSeg j = false) → s ≤ i → i < s + len →
      segLoop sched segOk (List.range' s len) files spawned =
        .error (spawned + (i - s)) := by
  intro len
  induction len with
  | zero =>
    intro s files spawned _ hsi hlt
    omega
  | succ n ih =>
    intro s files spawned hprev hsi hlt
    rw [List.range'_succ, segLoop]
    by_cases hs : s = i
    · subst hs
      rw [hi]
      simp [Nat.sub_self]
    · have hsf : sched.beforeSeg s = false := hprev s le_rfl (by omega)
      rw [hsf]
      simp only [Bool.false_eq_true, if_false]
      have hrec : ∀ fl : List ℕ,
          segLoop sched segOk (List.range' (s + 1) n) fl (spawned + 1) =
            .error ((spawned + 1) + (i - (s + 1))) :=
        fun fl => ih (s + 1) fl (spawned + 1)
          (fun j hj1 hj2 => hprev j (by omega) hj2) (by omega) (by omega)
      split
      · rw [hrec]
        congr 1
        omega
      · rw [hrec]
        congr 1
        omega

/-- C4 amended: the flag IS checked before each per-segment extraction — if
it is set at the check for segment `i` (and was not set at any earlier
check), the run raises a cancellation failure with exactly the `i` earlier
segment encodes spawned and no concat process started. There is no check
before the join: as the counterexample shows, a concat process can still be
spawned after cancellation. -/
theorem render_cancel_before_segment_amended (sched : CancelSchedule)
    (segOk : ℕ → Bool) (concatOk : Bool) (ts : List SpeechInterval) (i : ℕ)
    (hstart : sched.atStart = false)
    (hprev : ∀ j < i, sched.beforeSeg j = false)
    (hi : sched.beforeSeg i = true)
    (hlt : i < (safe_timestamps ts).length)
    (hne : ts ≠ []) :
    render_video sched segOk concatOk ts = ⟨.cancelledO, i, false⟩ := by
  unfold render_video
  rw [hstart]
  simp only [Bool.false_eq_true, if_false]
  rw [if_neg hne, List.range_eq_range']
  rw [segLoop_cancelled_at sched segOk i hi (safe_timestamps ts).length 0 [] 0
    (fun j _ hj2 => hprev j hj2) (Nat.zero_le i) (by omega)]
  simp [renderAfterLoop]

/-- Closed instance of `render_cancel_before_segment_amended`: three safe
segments, cancellation observed at the check before segment 1. -/
theorem render_cancel_before_segment_amended_witness :
    render_video cancelSchedSeg1 (fun _ => true) true [⟨0,1⟩, ⟨2,3⟩, ⟨4,5⟩] =
      ⟨.cancelledO, 1, false⟩ :=
  render_cancel_before_segment_amended cancelSchedSeg1 (fun _ => true) true
    [⟨0,1⟩, ⟨2,3⟩, ⟨4,5⟩] 1 rfl (by decide) rfl (by decide) (by decide)

/-- Without cancellation the segment loop spawns one encode per index and
keeps exactly the successfully extracted files, in order. -/
theorem segLoop_noCancel (segOk : ℕ → Bool) :
    ∀ (l : List ℕ) (files : List ℕ) (spawned : ℕ),
      segLoop noCancel segOk l files spawned =
        .ok (files ++ l.filter (fun j => segOk j), spawned + l.length) := by
  intro l
  induction l with
  | nil => intro files spawned; simp [segLoop]
  | cons i rest ih =>
    intro files spawned
    have hb : noCancel.beforeSeg i = false := rfl
    have ha : noCancel.afterSeg i = false := rfl
    rw [segLoop, hb]
    simp only [Bool.false_eq_true, if_false]
    by_cases hok : segOk i
    · rw [if_neg (by simp [hok, ha])]
      rw [ih (files ++ [i]) (spawned + 1)]
      rw [List.filter_cons, if_pos hok]
      have hlen : spawned + 1 + rest.length = spawned + (rest.length + 1) := by omega
      rw [hlen, List.append_assoc, List.singleton_append, List.length_cons]
    · rw [if_pos (by simp [hok, ha])]
      rw [List.dropLast_concat, ih files (spawned + 1)]
      rw [List.filter_cons, if_neg (by simp [hok])]
      have hlen : spawned + 1 + rest.length = spawned + (rest.length + 1) := by omega
      rw [hlen, List.length_cons]

/-- C8: with no cancellation, per-segment failures are skipped — whenever at
least one segment extracts successfully (and the join succeeds) the run
renders exactly the surviving segments after spawning every encode — while a
run in which every segment extraction fails raises the all-segments-failed
external-process failure without spawning the concat process. -/
theorem render_skip_failed_segments (segOk : ℕ → Bool) (concatOk : Bool)
    (ts : List SpeechInterval) (hne : ts ≠ []) :
    (((List.range (safe_timestamps ts).length).filter (fun j => segOk j)) ≠ [] →
      concatOk = true →
      render_video noCancel segOk concatOk ts =
        ⟨.rendered ((List.range (safe_timestamps ts).length).filter (fun j => segOk j)),
          (safe_timestamps ts).length, true⟩) ∧
    ((∀ j < (safe_timestamps ts).length, segOk j = false) →
      render_video noCancel segOk concatOk ts =
        ⟨.allFailedO, (safe_timestamps ts).length, false⟩) := by
  have hloop := segLoop_noCancel segOk (List.range (safe_timestamps ts).length) [] 0
  rw [List.nil_append, Nat.zero_add, List.length_range] at hloop
  constructor
  · intro hfil hcok
    unfold render_video
    rw [show noCancel.atStart = false from rfl]
    simp only [Bool.false_eq_true, if_false]
    rw [if_neg hne, hloop]
    rw [renderAfterLoop, if_neg hfil, hcok]
    simp
  · intro hall
    have hfil : (List.range (safe_timestamps ts).length).filter (fun j => segOk j) = [] := by
      rw [List.filter_eq_nil_iff]
      intro j hj
      simp [hall j (List.mem_range.mp hj)]
    unfold render_video
    rw [show noCancel.atStart = false from rfl]
    simp only [Bool.false_eq_true, if_false]
    rw [if_neg hne, hloop, hfil]
    rw [renderAfterLoop, if_pos rfl]

/-- Closed instances of `render_skip_failed_segments`: with two safe segments
of which only segment 0 extracts, the run renders `[0]` after two spawns;
with both extractions failing, the run raises the all-failed error. -/
theorem render_skip_failed_segments_witness :
    render_video noCancel (fun j => j == 0) true [⟨0,1⟩, ⟨2,3⟩] =
      ⟨.rendered [0], 2, true⟩ ∧
    render_video noCancel (fun _ => false) true [⟨0,1⟩, ⟨2,3⟩] =
      ⟨.allFailedO, 2, false⟩ :=
  ⟨(render_skip_failed_segments (fun j => j == 0) true [⟨0,1⟩, ⟨2,3⟩] (by decide)).1
      (by decide) rfl,
   (render_skip_failed_segments (fun _ => false) true [⟨0,1⟩, ⟨2,3⟩] (by decide)).2
      (by decide)⟩
